import Mathlib

/-!
Verification of the result-merging and reporting pipeline of the
csecht/search-aggregator repository (aggregate_search.py, multi_search.py,
search_engines/http_client.py, search_engines/search_utils/files.py).

The Python code is shallowly embedded: pure list/string computations become
Lean functions, the file system becomes an explicit map from file names to
optional contents, HTTP transport becomes an `Except` outcome parameter.
-/

namespace SearchAggregator

/-! ## Deduplication by URL key

`aggregate_search.py` line 97:
  `unique_results = tuple({res[0]: res for res in combined_results}.values())`
`multi_search.py` line 153:
  `unique_results = list({tup[:1]: tup for tup in combined_results}.values())`

A Python dict comprehension inserts the items left to right into an
insertion-ordered mapping; inserting an existing key overwrites the value but
keeps the key's position, and `.values()` lists the values in key-insertion
order.  Since the key is a function of the value (`res[0]`, resp. `tup[:1]`),
the mapping is faithfully represented by its value list, with insertion
replacing the first element having the same key, else appending at the end. -/

variable {α : Type} {κ : Type} [DecidableEq κ]

/-- One dict insertion: overwrite the value at an existing equal key in place,
otherwise append at the end. -/
def dictInsert (key : α → κ) (v : α) : List α → List α
  | [] => [v]
  | w :: rest => if key w = key v then v :: rest else w :: dictInsert key v rest

/-- `.values()` of the dict built from `xs` by inserting every element left to
right, keyed by `key`. -/
def dedupByKey (key : α → κ) (xs : List α) : List α :=
  xs.foldl (fun d r => dictInsert key r d) []

/-- The last element of the list whose key is `u` (the winning content of a
duplicated key). -/
def lastWithKey (key : α → κ) (u : κ) : List α → Option α
  | [] => none
  | r :: rs =>
    match lastWithKey key u rs with
    | some v => some v
    | none => if key r = u then some r else none

/-- Keys in first-occurrence order, ignoring keys already `seen`. -/
def firstDedupExcl (seen : List κ) : List κ → List κ
  | [] => []
  | k :: ks =>
    if k ∈ seen then firstDedupExcl seen ks
    else k :: firstDedupExcl (k :: seen) ks

/-- The distinct keys of a list in first-occurrence order. -/
def firstKeys (l : List κ) : List κ :=
  firstDedupExcl [] l

/-- A combined search result of `aggregate_search.py`: `(url, title, detail)`. -/
abbrev Result3 := String × String × String

/-- `aggregate_search.search_this` line 97: deduplicate the combined results,
keyed by the url `res[0]`. -/
def uniqueResults (combined_results : List Result3) : List Result3 :=
  dedupByKey (fun r => r.1) combined_results

/-- `multi_search.search_this` line 153: deduplicate the combined `(url, title)`
pairs, keyed by the one-element tuple slice `tup[:1]`; the one-element Python
tuple `(url,)` is modelled as the singleton list `[url]`. -/
def uniqueResultsMulti (combined_results : List (String × String)) :
    List (String × String) :=
  dedupByKey (fun tup => [tup.1]) combined_results

/-- The dedup of `aggregate_search.py` line 97 applied to url/title pairs:
keyed by the url component itself. -/
def uniqueResultsByUrl (combined_results : List (String × String)) :
    List (String × String) :=
  dedupByKey (fun tup => tup.1) combined_results

/-- A concrete combined result list (the spec's §8 example: engines A and B
both return `x.com`, B comes later in engine order). -/
def exampleCombined : List Result3 :=
  [("x.com", "(A) foo", "da"), ("x.com", "(B) bar", "db"),
   ("y.org", "(A) baz", "dc")]

/-! ## Per-engine limiter

`aggregate_search.py` lines 72-74: `results.links()[0:30]` etc.;
`multi_search.py` lines 131-132: `results.links()[0:20]`.
The Python slice `lst[0:n]` is embedded as taking the first `n` elements. -/

/-- The Python slice `lst[0:n]`. -/
def sliceTo {β : Type} : Nat → List β → List β
  | 0, _ => []
  | _ + 1, [] => []
  | n + 1, x :: xs => x :: sliceTo n xs

/-! ## Engine-tag counting

`aggregate_search.py` line 105: `num_uniq = sum(tag in res[1] for res in
unique_results)`. The Python substring test `pat in s` is embedded as
`strContains s pat` over the character lists of the strings. -/

/-- `pat` occurs at the start of `s` (character lists). -/
def listStartsWith : List Char → List Char → Bool
  | [], _ => true
  | _ :: _, [] => false
  | p :: ps, c :: cs => if p = c then listStartsWith ps cs else false

/-- `pat` occurs somewhere inside `s` (character lists). -/
def listOccurs (pat : List Char) : List Char → Bool
  | [] => pat.isEmpty
  | c :: cs => listStartsWith pat (c :: cs) || listOccurs pat cs

/-- Python `pat in s` for strings: substring containment. -/
def strContains (s pat : String) : Bool :=
  listOccurs pat.toList s.toList

/-- `aggregate_search.search_this` line 105: the number of unique results
whose (tagged) title contains the engine tag, computed as a sum of booleans
(`True` counts 1, `False` counts 0). -/
def numUniq (tag : String) (unique_results : List Result3) : Nat :=
  (unique_results.map fun res => if strContains res.2.1 tag then 1 else 0).sum

/-! ## HTTP client

`search_engines/http_client.py`, `HttpClient.get` / `HttpClient.post`.
The outcome of the underlying `requests` call is an explicit parameter:
either the raised `RequestException` (with its class description `__doc__`)
or the successful response (status code and body text). -/

/-- The `response` namedtuple of `HttpClient`: fields `http` and `html`. -/
structure HttpResponse where
  http : Nat
  html : String
deriving DecidableEq

/-- A successful `requests` response: `status_code` and `text`. -/
structure ReqSuccess where
  status_code : Nat
  text : String

/-- A raised `requests.exceptions.RequestException`, carrying its class
description string `__doc__`. -/
structure ReqError where
  doc : String

/-- `HttpClient.get` lines 23-31: on a `RequestException` return
`response(http=0, html=e.__doc__)`, otherwise return the status code and
body; the exception is never re-raised. -/
def HttpClient.get (outcome : Except ReqError ReqSuccess) : HttpResponse :=
  match outcome with
  | Except.error e => { http := 0, html := e.doc }
  | Except.ok req => { http := req.status_code, html := req.text }

/-- `HttpClient.post` lines 33-41: identical error handling to `get`. -/
def HttpClient.post (outcome : Except ReqError ReqSuccess) : HttpResponse :=
  match outcome with
  | Except.error e => { http := 0, html := e.doc }
  | Except.ok req => { http := req.status_code, html := req.text }

/-! ## Report file

`search_engines/search_utils/files.py`, `results2file`. The file system is
modelled as a map from file names to optional contents (`none` = the file
does not exist); `open(filepath, 'a')` followed by `write(data)` appends
`data` to the existing content, creating the file when absent. -/

/-- The file system: contents of each file name, if it exists. -/
def FileSys : Type := String → Option String

/-- `results2file(search_txt, data)`: append `data` to
`Results_<search_txt>.txt` (creating it if needed) and return the file
name. -/
def results2file (fs : FileSys) (search_txt data : String) :
    FileSys × String :=
  let filename := "Results_" ++ search_txt ++ ".txt"
  (fun f => if f = filename then some ((fs filename).getD "" ++ data)
            else fs f,
   filename)

/-- The empty file system: no file exists. -/
def emptyFS : FileSys := fun _ => none

/-! ## Search-term sanitisation in `aggregate_search.main`

Line 173: `term = input(...).lstrip()`;
line 181: `term = term.replace(' ', '+')`. -/

/-- Python `str.lstrip()` with no argument: drop leading whitespace
(space, tab, linefeed, carriage return, vertical tab, form feed). -/
def pyLstrip (s : String) : String :=
  String.mk (s.toList.dropWhile fun c =>
    c = ' ' ∨ c = '\t' ∨ c = '\n' ∨ c = '\r' ∨ c = '\x0b' ∨ c = '\x0c')

/-- Python `term.replace(' ', '+')`: every space becomes `'+'`. -/
def replaceSpaces (s : String) : String :=
  String.mk (s.toList.map fun c => if c = ' ' then '+' else c)

/-- The term `aggregate_search.main` passes to `results2file`: the entered
term is first `lstrip`ped (line 173), then spaces are replaced (line 181). -/
def mainTerm (entered : String) : String :=
  replaceSpaces (pyLstrip entered)

/-! ## Command-line argument handling

`aggregate_search.parse_args` lines 125-161. Printing is modelled as a list
of emitted lines, `sys_exit(code)` as `some code`, falling through as
`none`. Reading the usage resource file is an explicit `Option String`
parameter (`none` = `FileNotFoundError`). -/

/-- The `--about` / `--use` flags of the argument parser. -/
structure CliFlags where
  about : Bool
  use : Bool

/-- The usage banner printed by the `--use` branch. -/
def usageMsg : String :=
  "USAGE: Run aggregate_search.py without arguments, then enter your search term at the prompt."

/-- The message printed when `aggregate_utils/use_syntax.txt` is absent. -/
def missingUseFileMsg : String :=
  "Sorry, but could not find file: aggregate_utils/use_syntax.txt"

/-- `aggregate_search.parse_args` lines 138-161: `--about` prints the about
lines and exits 0; `--use` (or a help-like `assist` string) prints the usage
banner, then the resource file's text, or the missing-file message when the
file is absent, and exits 0 either way; otherwise the function returns. -/
def parse_args (aboutLines : List String) (flags : CliFlags)
    (assistHelp : Bool) (useSyntaxFile : Option String) :
    List String × Option Nat :=
  if flags.about then (aboutLines, some 0)
  else if flags.use || assistHelp then
    match useSyntaxFile with
    | some txt => ([usageMsg, txt], some 0)
    | none => ([usageMsg, missingUseFileMsg], some 0)
  else ([], none)

/-! ### Lemmas about `dictInsert` and `dedupByKey` -/

theorem find?_dictInsert (key : α → κ) (u : κ) (v : α) (d : List α) :
    (dictInsert key v d).find? (fun r => decide (key r = u)) =
      if key v = u then some v else d.find? (fun r => decide (key r = u)) := by
  induction d with
  | nil => by_cases h : key v = u <;> simp [dictInsert, List.find?, h]
  | cons w rest ih =>
    by_cases hw : key w = key v
    · by_cases h : key v = u
      · simp [dictInsert, hw, List.find?, h]
      · have hw' : ¬ key w = u := by rw [hw]; exact h
        simp [dictInsert, hw, List.find?, h, hw']
    · rw [dictInsert, if_neg hw]
      by_cases h : key w = u
      · have hv' : ¬ key v = u := by
          intro hv; exact hw (h.trans hv.symm)
        simp [List.find?, h, hv']
      · simp [List.find?, h, ih]

theorem find?_foldl_dictInsert (key : α → κ) (u : κ) (xs : List α) :
    ∀ d : List α,
      (xs.foldl (fun d r => dictInsert key r d) d).find? (fun r => decide (key r = u)) =
        match lastWithKey key u xs with
        | some v => some v
        | none => d.find? (fun r => decide (key r = u)) := by
  induction xs with
  | nil => intro d; simp [lastWithKey]
  | cons r rs ih =>
    intro d
    have step := find?_dictInsert key u r d
    simp only [List.foldl_cons, ih (dictInsert key r d), lastWithKey]
    cases hrs : lastWithKey key u rs with
    | some v => simp
    | none =>
      by_cases h : key r = u
      · simp [h, step]
      · simp [h, step]

/-- The value kept for key `u` by the dedup is the last occurrence of `u`. -/
theorem find?_dedupByKey (key : α → κ) (u : κ) (xs : List α) :
    (dedupByKey key xs).find? (fun r => decide (key r = u)) = lastWithKey key u xs := by
  have h := find?_foldl_dictInsert key u xs []
  cases hx : lastWithKey key u xs <;> simp [dedupByKey, hx] at h ⊢ <;> exact h

theorem map_key_dictInsert (key : α → κ) (v : α) (d : List α) :
    (dictInsert key v d).map key =
      if key v ∈ d.map key then d.map key else d.map key ++ [key v] := by
  induction d with
  | nil => simp [dictInsert]
  | cons w rest ih =>
    by_cases hw : key w = key v
    · simp [dictInsert, hw]
    · have : ¬ key v = key w := fun h => hw h.symm
      simp only [dictInsert, if_neg hw, List.map_cons, List.mem_cons, this, false_or, ih]
      by_cases hmem : key v ∈ rest.map key <;> simp [hmem]

theorem firstDedupExcl_congr (l : List κ) :
    ∀ s₁ s₂ : List κ, (∀ x, x ∈ s₁ ↔ x ∈ s₂) →
      firstDedupExcl s₁ l = firstDedupExcl s₂ l := by
  induction l with
  | nil => intro s₁ s₂ _; rfl
  | cons k ks ih =>
    intro s₁ s₂ h
    by_cases hk : k ∈ s₁
    · rw [firstDedupExcl, if_pos hk, firstDedupExcl, if_pos ((h k).mp hk), ih s₁ s₂ h]
    · have hk₂ : k ∉ s₂ := fun hx => hk ((h k).mpr hx)
      rw [firstDedupExcl, if_neg hk, firstDedupExcl, if_neg hk₂]
      exact congrArg (k :: ·) (ih (k :: s₁) (k :: s₂) fun x => by simp [h x])

theorem map_key_foldl_dictInsert (key : α → κ) (xs : List α) :
    ∀ d : List α,
      (xs.foldl (fun d r => dictInsert key r d) d).map key =
        d.map key ++ firstDedupExcl (d.map key) (xs.map key) := by
  induction xs with
  | nil => intro d; simp [firstDedupExcl]
  | cons r rs ih =>
    intro d
    simp only [List.foldl_cons, List.map_cons, ih (dictInsert key r d),
      map_key_dictInsert]
    by_cases hmem : key r ∈ d.map key
    · rw [if_pos hmem, firstDedupExcl, if_pos hmem]
    · rw [if_neg hmem, firstDedupExcl, if_neg hmem, List.append_assoc,
        List.singleton_append]
      exact congrArg (d.map key ++ ·) (congrArg (key r :: ·)
        (firstDedupExcl_congr (rs.map key) _ _ fun x => by simp [or_comm]))

/-- The key sequence of the dedup output is the input's key sequence with
every key kept at its first occurrence only. -/
theorem map_key_dedupByKey (key : α → κ) (xs : List α) :
    (dedupByKey key xs).map key = firstKeys (xs.map key) := by
  have h := map_key_foldl_dictInsert key xs []
  simpa [dedupByKey, firstKeys] using h

theorem mem_firstDedupExcl (x : κ) (l : List κ) :
    ∀ seen : List κ, x ∈ firstDedupExcl seen l ↔ x ∈ l ∧ x ∉ seen := by
  induction l with
  | nil => intro seen; simp [firstDedupExcl]
  | cons k ks ih =>
    intro seen
    by_cases hk : k ∈ seen
    · rw [firstDedupExcl, if_pos hk, ih seen]
      constructor
      · rintro ⟨hx, hs⟩; exact ⟨List.mem_cons_of_mem _ hx, hs⟩
      · rintro ⟨hx, hs⟩
        rcases List.mem_cons.mp hx with rfl | hx
        · exact absurd hk hs
        · exact ⟨hx, hs⟩
    · rw [firstDedupExcl, if_neg hk, List.mem_cons, ih (k :: seen)]
      constructor
      · rintro (rfl | ⟨hx, hs⟩)
        · exact ⟨List.mem_cons_self _ _, hk⟩
        · exact ⟨List.mem_cons_of_mem _ hx, fun hx' => hs (List.mem_cons_of_mem _ hx')⟩
      · rintro ⟨hx, hs⟩
        rcases List.mem_cons.mp hx with rfl | hx
        · exact Or.inl rfl
        · by_cases hxk : x = k
          · exact Or.inl hxk
          · exact Or.inr ⟨hx, fun hx' => by
              rcases List.mem_cons.mp hx' with h | h
              · exact hxk h
              · exact hs h⟩

theorem nodup_firstDedupExcl (l : List κ) :
    ∀ seen : List κ, (firstDedupExcl seen l).Nodup := by
  induction l with
  | nil => intro seen; simp [firstDedupExcl]
  | cons k ks ih =>
    intro seen
    by_cases hk : k ∈ seen
    · rw [firstDedupExcl, if_pos hk]; exact ih seen
    · rw [firstDedupExcl, if_neg hk]
      refine List.nodup_cons.mpr ⟨fun hmem => ?_, ih (k :: seen)⟩
      exact ((mem_firstDedupExcl k ks (k :: seen)).mp hmem).2 (List.mem_cons_self _ _)

theorem length_firstDedupExcl (l : List κ) :
    ∀ seen : List κ,
      (firstDedupExcl seen l).length ≤ l.length ∧
      ((firstDedupExcl seen l).length = l.length ↔
        l.Nodup ∧ ∀ x ∈ l, x ∉ seen) := by
  induction l with
  | nil => intro seen; simp [firstDedupExcl]
  | cons k ks ih =>
    intro seen
    by_cases hk : k ∈ seen
    · rw [firstDedupExcl, if_pos hk]
      refine ⟨(ih seen).1.trans (Nat.le_succ _), ?_⟩
      constructor
      · intro h
        have hle := (ih seen).1
        simp only [List.length_cons] at h
        omega
      · rintro ⟨-, hall⟩
        exact absurd hk (hall k (List.mem_cons_self _ _))
    · rw [firstDedupExcl, if_neg hk]
      refine ⟨by simpa using Nat.succ_le_succ (ih (k :: seen)).1, ?_⟩
      simp only [List.length_cons, Nat.succ_inj]
      rw [(ih (k :: seen)).2, List.nodup_cons]
      constructor
      · rintro ⟨hnd, hall⟩
        refine ⟨⟨fun hmem => ?_, hnd⟩, fun x hx => ?_⟩
        · exact (hall k hmem) (List.mem_cons_self _ _)
        · rcases List.mem_cons.mp hx with rfl | hx
          · exact hk
          · exact fun hs => (hall x hx) (List.mem_cons_of_mem _ hs)
      · rintro ⟨⟨hknk, hnd⟩, hall⟩
        refine ⟨hnd, fun x hx hs => ?_⟩
        rcases List.mem_cons.mp hs with rfl | hs
        · exact hknk hx
        · exact (hall x (List.mem_cons_of_mem _ hx)) hs

/-- First-occurrence dedup preserves the relative order of first
occurrences: `u` comes no later than `v` in the dedup exactly when the first
occurrence of `u` comes no later than the first occurrence of `v`. -/
theorem indexOf_firstDedupExcl (l : List κ) :
    ∀ (seen : List κ) (u v : κ), u ∈ l → v ∈ l → u ∉ seen → v ∉ seen →
      ((firstDedupExcl seen l).indexOf u ≤ (firstDedupExcl seen l).indexOf v ↔
        l.indexOf u ≤ l.indexOf v) := by
  induction l with
  | nil => intro seen u v hu _ _ _; simp at hu
  | cons k ks ih =>
    intro seen u v hu hv hus hvs
    by_cases hk : k ∈ seen
    · rw [firstDedupExcl, if_pos hk]
      have hku : k ≠ u := fun h => hus (h ▸ hk)
      have hkv : k ≠ v := fun h => hvs (h ▸ hk)
      have hu' : u ∈ ks := by
        rcases List.mem_cons.mp hu with rfl | h
        · exact absurd rfl hku
        · exact h
      have hv' : v ∈ ks := by
        rcases List.mem_cons.mp hv with rfl | h
        · exact absurd rfl hkv
        · exact h
      rw [List.indexOf_cons_ne ks hku, List.indexOf_cons_ne ks hkv,
        Nat.succ_le_succ_iff]
      exact ih seen u v hu' hv' hus hvs
    · rw [firstDedupExcl, if_neg hk]
      by_cases huk : u = k
      · subst huk
        simp [List.indexOf_cons_self]
      · have hku : u ≠ k := huk
        have hu' : u ∈ ks := by
          rcases List.mem_cons.mp hu with rfl | h
          · exact absurd rfl hku
          · exact h
        by_cases hvk : v = k
        · subst hvk
          rw [List.indexOf_cons_self, List.indexOf_cons_self,
            List.indexOf_cons_ne _ (fun h => hku h.symm),
            List.indexOf_cons_ne _ (fun h => hku h.symm)]
          simp
        · have hv' : v ∈ ks := by
            rcases List.mem_cons.mp hv with rfl | h
            · exact absurd rfl hvk
            · exact h
          rw [List.indexOf_cons_ne _ (fun h => hku h.symm),
            List.indexOf_cons_ne _ (fun h => hvk h.symm),
            List.indexOf_cons_ne ks (fun h => hku h.symm),
            List.indexOf_cons_ne ks (fun h => hvk h.symm),
            Nat.succ_le_succ_iff, Nat.succ_le_succ_iff]
          exact ih (k :: seen) u v hu' hv'
            (fun h => (List.mem_cons.mp h).elim hku hus)
            (fun h => (List.mem_cons.mp h).elim hvk hvs)

theorem filter_key_length_of_nodup (key : α → κ) (l : List α) (u : κ)
    (hnd : (l.map key).Nodup) (hu : u ∈ l.map key) :
    (l.filter (fun r => decide (key r = u))).length = 1 := by
  induction l with
  | nil => simp at hu
  | cons r rest ih =>
    simp only [List.map_cons, List.nodup_cons] at hnd
    by_cases hr : key r = u
    · have hnil : rest.filter (fun r => decide (key r = u)) = [] := by
        rw [List.filter_eq_nil_iff]
        intro a ha hp
        exact hnd.1 (hr ▸ (of_decide_eq_true hp) ▸ List.mem_map_of_mem key ha)
      simp [List.filter_cons, hr, hnil]
    · have hu' : u ∈ rest.map key := by
        simp only [List.map_cons, List.mem_cons] at hu
        rcases hu with h | h
        · exact absurd h.symm hr
        · exact h
      simp [List.filter_cons, hr, ih hnd.2 hu']

theorem mem_map_key_dedupByKey (key : α → κ) (xs : List α) (u : κ) :
    u ∈ (dedupByKey key xs).map key ↔ u ∈ xs.map key := by
  rw [map_key_dedupByKey, firstKeys, mem_firstDedupExcl]
  simp

theorem nodup_map_key_dedupByKey (key : α → κ) (xs : List α) :
    ((dedupByKey key xs).map key).Nodup := by
  rw [map_key_dedupByKey, firstKeys]
  exact nodup_firstDedupExcl _ _

theorem dictInsert_key_congr {κ' : Type} [DecidableEq κ']
    (k₁ : α → κ) (k₂ : α → κ') (h : ∀ a b, k₁ a = k₁ b ↔ k₂ a = k₂ b)
    (v : α) (d : List α) :
    dictInsert k₁ v d = dictInsert k₂ v d := by
  induction d with
  | nil => rfl
  | cons w rest ih =>
    by_cases hw : k₁ w = k₁ v
    · rw [dictInsert, if_pos hw, dictInsert, if_pos ((h w v).mp hw)]
    · rw [dictInsert, if_neg hw, dictInsert, if_neg (fun h2 => hw ((h w v).mpr h2)), ih]

theorem dedupByKey_key_congr {κ' : Type} [DecidableEq κ']
    (k₁ : α → κ) (k₂ : α → κ') (h : ∀ a b, k₁ a = k₁ b ↔ k₂ a = k₂ b)
    (xs : List α) :
    dedupByKey k₁ xs = dedupByKey k₂ xs := by
  suffices hgen : ∀ d : List α,
      xs.foldl (fun d r => dictInsert k₁ r d) d =
        xs.foldl (fun d r => dictInsert k₂ r d) d from hgen []
  induction xs with
  | nil => intro d; rfl
  | cons r rs ih =>
    intro d
    simp only [List.foldl_cons, dictInsert_key_congr k₁ k₂ h r d]
    exact ih (dictInsert k₂ r d)

/-! ## Claim theorems -/

/-- C1: `unique_results` contains exactly one entry per distinct url of
`combined_results`; the entry kept for a url is the LAST occurrence of that
url in `combined_results` (so when engine A's result for a url precedes
engine B's, B's content wins), and positions follow FIRST occurrences: the
url sequence of `unique_results` is the first-occurrence dedup of the
combined url sequence, and the relative order of any two urls in
`unique_results` agrees with the order of their first occurrences in
`combined_results`. -/
theorem uniqueResults_one_per_url_last_content_first_order
    (combined_results : List Result3) (u v : String)
    (hu : u ∈ combined_results.map fun r => r.1)
    (hv : v ∈ combined_results.map fun r => r.1) :
    ((uniqueResults combined_results).filter fun r => decide (r.1 = u)).length = 1 ∧
    (uniqueResults combined_results).find? (fun r => decide (r.1 = u)) =
      lastWithKey (fun r => r.1) u combined_results ∧
    (uniqueResults combined_results).map (fun r => r.1) =
      firstKeys (combined_results.map fun r => r.1) ∧
    (((uniqueResults combined_results).map fun r => r.1).indexOf u ≤
        ((uniqueResults combined_results).map fun r => r.1).indexOf v ↔
      (combined_results.map fun r => r.1).indexOf u ≤
        (combined_results.map fun r => r.1).indexOf v) := by
  refine ⟨?_, ?_, ?_, ?_⟩
  · exact filter_key_length_of_nodup _ _ u (nodup_map_key_dedupByKey _ _)
      ((mem_map_key_dedupByKey _ _ u).mpr hu)
  · exact find?_dedupByKey _ u combined_results
  · exact map_key_dedupByKey _ combined_results
  · rw [uniqueResults, map_key_dedupByKey, firstKeys]
    exact indexOf_firstDedupExcl _ [] u v hu hv (by simp) (by simp)

/-- Witness for C1 at the spec's §8 example list. -/
theorem uniqueResults_one_per_url_last_content_first_order_witness :
    ((uniqueResults exampleCombined).filter fun r => decide (r.1 = "x.com")).length = 1 ∧
    (uniqueResults exampleCombined).find? (fun r => decide (r.1 = "x.com")) =
      lastWithKey (fun r => r.1) "x.com" exampleCombined ∧
    (uniqueResults exampleCombined).map (fun r => r.1) =
      firstKeys (exampleCombined.map fun r => r.1) ∧
    (((uniqueResults exampleCombined).map fun r => r.1).indexOf "x.com" ≤
        ((uniqueResults exampleCombined).map fun r => r.1).indexOf "y.org" ↔
      (exampleCombined.map fun r => r.1).indexOf "x.com" ≤
        (exampleCombined.map fun r => r.1).indexOf "y.org") :=
  uniqueResults_one_per_url_last_content_first_order exampleCombined
    "x.com" "y.org" (by decide) (by decide)

/-- C2: `len(unique_results) <= len(combined_results)`, with equality exactly
when all urls of `combined_results` are pairwise distinct; and every url of
`combined_results` has exactly one entry in `unique_results`. -/
theorem uniqueResults_length_le_eq_iff_distinct
    (combined_results : List Result3) :
    (uniqueResults combined_results).length ≤ combined_results.length ∧
    ((uniqueResults combined_results).length = combined_results.length ↔
      (combined_results.map fun r => r.1).Nodup) ∧
    ∀ u ∈ combined_results.map fun r => r.1,
      ((uniqueResults combined_results).filter fun r => decide (r.1 = u)).length = 1 := by
  have hmap : (uniqueResults combined_results).map (fun r => r.1) =
      firstDedupExcl [] (combined_results.map fun r => r.1) :=
    map_key_dedupByKey _ _
  have hlen : (uniqueResults combined_results).length =
      (firstDedupExcl [] (combined_results.map fun r => r.1)).length := by
    rw [← hmap, List.length_map]
  have h1 := length_firstDedupExcl (combined_results.map fun r => r.1) []
  refine ⟨?_, ?_, ?_⟩
  · rw [hlen]; simpa using h1.1
  · rw [hlen]; simpa using h1.2
  · intro u hu
    exact filter_key_length_of_nodup _ _ u (nodup_map_key_dedupByKey _ _)
      ((mem_map_key_dedupByKey _ _ u).mpr hu)

/-- Witness for C2 at the spec's §8 example list. -/
theorem uniqueResults_length_le_eq_iff_distinct_witness :
    (uniqueResults exampleCombined).length ≤ exampleCombined.length ∧
    ((uniqueResults exampleCombined).length = exampleCombined.length ↔
      (exampleCombined.map fun r => r.1).Nodup) ∧
    ((uniqueResults exampleCombined).filter fun r => decide (r.1 = "x.com")).length = 1 :=
  ⟨(uniqueResults_length_le_eq_iff_distinct exampleCombined).1,
   (uniqueResults_length_le_eq_iff_distinct exampleCombined).2.1,
   (uniqueResults_length_le_eq_iff_distinct exampleCombined).2.2 "x.com" (by decide)⟩

/-- C9: the two deduplication implementations agree — keying the dict by the
url itself (`aggregate_search.py` line 97) and by the one-element tuple
slice `tup[:1]` (`multi_search.py` line 153) retain the same sequence of
results, for every combined list of `(url, title)` tuples. -/
theorem dedup_url_key_eq_dedup_slice_key
    (combined_results : List (String × String)) :
    uniqueResultsByUrl combined_results = uniqueResultsMulti combined_results :=
  dedupByKey_key_congr _ _ (fun a b => by simp) combined_results

theorem sum_map_add {β : Type} (l : List β) (f g : β → Nat) :
    (l.map fun x => f x + g x).sum = (l.map f).sum + (l.map g).sum := by
  induction l with
  | nil => simp
  | cons x xs ih => simp only [List.map_cons, List.sum_cons, ih]; omega

/-- C3: when every title of `unique_results` contains exactly one of the
engine tags, the per-engine unique counts of `aggregate_search.py` lines
104-105 sum to the number of unique results. -/
theorem numUniq_sum_eq_length
    (tags : List String) (unique_results : List Result3)
    (hone : ∀ res ∈ unique_results,
      (tags.map fun tag => if strContains res.2.1 tag then 1 else 0).sum = 1) :
    (tags.map fun tag => numUniq tag unique_results).sum =
      unique_results.length := by
  induction unique_results with
  | nil => simp [numUniq]
  | cons r rs ih =>
    have hr := hone r (List.mem_cons_self _ _)
    have hrs := fun res h => hone res (List.mem_cons_of_mem r h)
    calc (tags.map fun tag => numUniq tag (r :: rs)).sum
        = (tags.map fun tag =>
            (if strContains r.2.1 tag then 1 else 0) + numUniq tag rs).sum := by
          simp only [numUniq, List.map_cons, List.sum_cons]
      _ = (tags.map fun tag => if strContains r.2.1 tag then 1 else 0).sum +
            (tags.map fun tag => numUniq tag rs).sum :=
          sum_map_add tags _ _
      _ = 1 + rs.length := by rw [hr, ih hrs]
      _ = (r :: rs).length := by simp [Nat.add_comm]

/-- Witness for C3: two mutually exclusive tags covering the example's three
titles. -/
theorem numUniq_sum_eq_length_witness :
    ((["(A)", "(B)"] : List String).map
        fun tag => numUniq tag exampleCombined).sum =
      exampleCombined.length :=
  numUniq_sum_eq_length ["(A)", "(B)"] exampleCombined (by decide)

theorem sliceTo_eq_take {β : Type} (n : Nat) (xs : List β) :
    sliceTo n xs = xs.take n := by
  induction xs generalizing n with
  | nil => cases n <;> rfl
  | cons x xs ih =>
    cases n with
    | zero => rfl
    | succ n => simp [sliceTo, ih]

/-- C4: the per-engine limiter `lst[0:C]` returns exactly the first `C`
elements, in their original order, when at least `C` results exist, and
returns the whole list unchanged when fewer than `C` exist. -/
theorem sliceTo_first_or_all {β : Type} (C : Nat) (xs : List β) :
    (C ≤ xs.length →
      (sliceTo C xs).length = C ∧ sliceTo C xs ++ xs.drop C = xs) ∧
    (xs.length < C → sliceTo C xs = xs) := by
  constructor
  · intro hC
    rw [sliceTo_eq_take]
    exact ⟨by rw [List.length_take]; omega, List.take_append_drop C xs⟩
  · intro hC
    rw [sliceTo_eq_take]
    exact List.take_of_length_le (Nat.le_of_lt hC)

/-- Witness for C4: cap 30 on a 50-element list gives exactly its first 30
elements; cap 30 on a 10-element list returns it unchanged. -/
theorem sliceTo_first_or_all_witness :
    ((sliceTo 30 (List.range 50)).length = 30 ∧
      sliceTo 30 (List.range 50) ++ (List.range 50).drop 30 = List.range 50) ∧
    sliceTo 30 (List.range 10) = List.range 10 :=
  ⟨(sliceTo_first_or_all 30 (List.range 50)).1 (by simp),
   (sliceTo_first_or_all 30 (List.range 10)).2 (by simp)⟩

/-- C5: `HttpClient.get` and `HttpClient.post` never propagate a
`RequestException` to the caller: a transport failure yields a response
value with http status 0 and the exception's description as the html. -/
theorem httpClient_error_degrades (e : ReqError) :
    HttpClient.get (Except.error e) = { http := 0, html := e.doc } ∧
    HttpClient.post (Except.error e) = { http := 0, html := e.doc } :=
  ⟨rfl, rfl⟩

/-- C6: two `results2file` calls for the same sanitized term append the two
data strings in order to the same file, truncating nothing and leaving every
other file untouched. -/
theorem results2file_twice_appends (fs : FileSys) (t d1 d2 : String) :
    ((results2file (results2file fs t d1).1 t d2).1)
        ("Results_" ++ t ++ ".txt") =
      some (((fs ("Results_" ++ t ++ ".txt")).getD "" ++ d1) ++ d2) ∧
    (results2file (results2file fs t d1).1 t d2).2 =
      (results2file fs t d1).2 ∧
    ∀ f, f ≠ "Results_" ++ t ++ ".txt" →
      ((results2file (results2file fs t d1).1 t d2).1) f = fs f := by
  refine ⟨by simp [results2file], rfl, ?_⟩
  intro f hf
  simp [results2file, hf]

/-- Witness for C6 on the empty file system. -/
theorem results2file_twice_appends_witness :
    ((results2file (results2file emptyFS "x" "a").1 "x" "b").1)
        ("Results_" ++ "x" ++ ".txt") =
      some (((emptyFS ("Results_" ++ "x" ++ ".txt")).getD "" ++ "a") ++ "b") ∧
    (results2file (results2file emptyFS "x" "a").1 "x" "b").2 =
      (results2file emptyFS "x" "a").2 ∧
    ((results2file (results2file emptyFS "x" "a").1 "x" "b").1) "other.txt" =
      emptyFS "other.txt" :=
  ⟨(results2file_twice_appends emptyFS "x" "a" "b").1,
   (results2file_twice_appends emptyFS "x" "a" "b").2.1,
   (results2file_twice_appends emptyFS "x" "a" "b").2.2 "other.txt" (by decide)⟩

/-- C7: with the `--use` flag (or a help-like prompt entry) and the usage
resource file absent, `parse_args` prints the missing-file error message and
exits with code 0 — the missing resource is non-fatal. -/
theorem parse_args_use_missing_file_exit0
    (aboutLines : List String) (flags : CliFlags) (assistHelp : Bool)
    (hab : flags.about = false) (huse : flags.use = true ∨ assistHelp = true) :
    (parse_args aboutLines flags assistHelp none).2 = some 0 ∧
    missingUseFileMsg ∈ (parse_args aboutLines flags assistHelp none).1 := by
  rcases huse with h | h <;> simp [parse_args, hab, h]

/-- Witness for C7: `--use` given, resource file absent. -/
theorem parse_args_use_missing_file_exit0_witness :
    (parse_args [] { about := false, use := true } false none).2 = some 0 ∧
    missingUseFileMsg ∈ (parse_args [] { about := false, use := true } false none).1 :=
  parse_args_use_missing_file_exit0 [] { about := false, use := true } false
    rfl (Or.inl rfl)

/-- C8 counterexample: for the entered term `" a"` (leading space), the file
name is `Results_a.txt`, not `Results_+a.txt` as replacing every space of
the entered term would demand — `main` strips leading whitespace (line 173)
before replacing spaces (line 181). -/
theorem results2file_name_not_plus_of_entered :
    (results2file emptyFS (mainTerm " a") "x").2 ≠
      "Results_" ++ replaceSpaces " a" ++ ".txt" := by decide

/-- C8 amended: the output file name is exactly `Results_<sanitized>.txt`
where the sanitized term is the entered term with leading whitespace
stripped and then every space replaced by `'+'`; `results2file` returns this
name on every call, for every file-system state and data string. -/
theorem results2file_name_of_mainTerm
    (entered : String) (fs : FileSys) (data : String) :
    (results2file fs (mainTerm entered) data).2 =
      "Results_" ++ replaceSpaces (pyLstrip entered) ++ ".txt" := rfl

/-- C10: writing the empty string is an identity on the report file: the
content is unchanged when the file exists, an empty file is created when
none existed, no other file is touched, and the same file name is returned
as for any other call for that term. -/
theorem results2file_empty_data_identity (fs : FileSys) (t : String) :
    (results2file fs t "").2 = "Results_" ++ t ++ ".txt" ∧
    (∀ c, fs ("Results_" ++ t ++ ".txt") = some c →
      (results2file fs t "").1 = fs) ∧
    (fs ("Results_" ++ t ++ ".txt") = none →
      ∀ f, (results2file fs t "").1 f =
        if f = "Results_" ++ t ++ ".txt" then some "" else fs f) := by
  refine ⟨rfl, ?_, ?_⟩
  · intro c hc
    funext f
    simp only [results2file]
    by_cases hf : f = "Results_" ++ t ++ ".txt"
    · rw [if_pos hf, hc, hf, hc]
      simp [String.append_empty]
    · rw [if_neg hf]
  · intro hnone f
    simp only [results2file]
    by_cases hf : f = "Results_" ++ t ++ ".txt"
    · rw [if_pos hf, if_pos hf, hnone]
      rfl
    · rw [if_neg hf, if_neg hf]

/-- Witness for C10: a file system where the report file exists with content
`"old"`, and one where it does not exist. -/
theorem results2file_empty_data_identity_witness :
    (results2file (fun f => if f = "Results_t.txt" then some "old" else none)
        "t" "").1 = (fun f => if f = "Results_t.txt" then some "old" else none) ∧
    (results2file emptyFS "t" "").1 "Results_t.txt" =
      if ("Results_t.txt" : String) = "Results_" ++ "t" ++ ".txt"
      then some "" else emptyFS "Results_t.txt" :=
  ⟨(results2file_empty_data_identity
      (fun f => if f = "Results_t.txt" then some "old" else none) "t").2.1
        "old" (by simp),
   (results2file_empty_data_identity emptyFS "t").2.2 rfl "Results_t.txt"⟩

end SearchAggregator
